import Mathlib

/-!
Verification of the `hrw` crate: rendezvous (highest-random-weight) hashing over a
node set with a pluggable hasher (`src/lib.rs`).

The embedding models the node collection `Vec<N>` as `List N`.  The hash builder
`S : BuildHasher` and the `Hasher` values it produces are external collaborators
(the spec declares the concrete hash function out of scope), so they are modelled
abstractly: an accumulator state is a `Nat`, and the builder supplies the fresh
accumulator together with the `Hash::hash` steps for keys and nodes and the final
`Hasher::finish`.  Machine integers (`u64` scores) are modelled as `Nat` with an
explicit truncation modulo `2 ^ 64` at `finish`.
-/

set_option maxHeartbeats 1000000

/-- Model of the pluggable hashing capability: the Rust type parameter
`S : BuildHasher` together with the `Hasher` it builds.  `build_hasher` is the
state of a freshly built accumulator, `hashKey` and `hashNode` are the
`Hash::hash` steps for the key and node types, and `finish` extracts the final
value (truncated to 64 bits by `hrw_score`). -/
structure BuildHasher (K N : Type) where
  build_hasher : Nat
  hashKey : Nat → K → Nat
  hashNode : Nat → N → Nat
  finish : Nat → Nat

/-- The selector `Rendezvous<N, S>`: an owned vector of nodes plus the hash
builder.  The key type `K` is fixed as a parameter of the model (in Rust it is a
per-call generic `K: Hash`). -/
structure Rendezvous (N K : Type) where
  nodes : List N
  build : BuildHasher K N

/-- `fn hrw_score<K: Hash>(key, node, build) -> u64`: feed the key and then the
node into a fresh hasher obtained from the builder, and `finish`.  The result is
a 64-bit value. -/
def hrw_score {N K : Type} (key : K) (node : N) (build : BuildHasher K N) : Nat :=
  build.finish (build.hashNode (build.hashKey build.build_hasher key) node) % 2 ^ 64

/-- `Rendezvous::new()`: empty node vector; `RandomState::new()` draws a fresh
builder, modelled as the parameter `b`. -/
def Rendezvous.new {N K : Type} (b : BuildHasher K N) : Rendezvous N K :=
  { nodes := [], build := b }

/-- `Rendezvous::from_nodes(nodes)`: collect the iterator into the node vector,
with a fresh `RandomState` builder (parameter `b`).  Note: the iterator is
collected as-is, with no deduplication. -/
def Rendezvous.from_nodes {N K : Type} (l : List N) (b : BuildHasher K N) : Rendezvous N K :=
  { nodes := l, build := b }

/-- `Rendezvous::from_nodes_and_hasher(nodes, build)`: collect the iterator
as-is and store the caller-supplied builder. -/
def Rendezvous.from_nodes_and_hasher {N K : Type} (l : List N) (b : BuildHasher K N) :
    Rendezvous N K :=
  { nodes := l, build := b }

/-- `fn add_node(&mut self, node: N) -> bool`: push the node at the end of the
vector unless an equal element is already present; return whether the push
happened.  Modelled state-passing: the updated selector is returned with the
boolean. -/
def Rendezvous.add_node {N K : Type} [DecidableEq N] (r : Rendezvous N K) (node : N) :
    Rendezvous N K × Bool :=
  if r.nodes.any (fun n => decide (n = node)) then
    (r, false)
  else
    ({ r with nodes := r.nodes ++ [node] }, true)

/-- Model of `Iterator::position(pred)`: index of the first element satisfying
the predicate. -/
def listPosition {N : Type} (p : N → Bool) : List N → Option Nat
  | [] => none
  | x :: t => if p x then some 0 else (listPosition p t).map (fun i => i + 1)

/-- Model of `Vec::swap_remove(i)`: overwrite index `i` with the last element
and pop the last element. -/
def swapRemove {N : Type} (l : List N) (i : Nat) : List N :=
  match l.getLast? with
  | none => l
  | some z => (l.set i z).dropLast

/-- `fn remove_node(&mut self, node: &N) -> bool`: find the position of the
first equal element; if found, `swap_remove` it and return `true`, otherwise
return `false` and leave the vector unchanged. -/
def Rendezvous.remove_node {N K : Type} [DecidableEq N] (r : Rendezvous N K) (node : N) :
    Rendezvous N K × Bool :=
  match listPosition (fun n => decide (n = node)) r.nodes with
  | some i => ({ r with nodes := swapRemove r.nodes i }, true)
  | none => (r, false)

/-- `fn pick_top<K: Hash>(&self, key: &K) -> Option<&N>`: a `max_by_key` scan
over the node vector.  Rust's `Iterator::max_by_key` is documented to return the
*last* element when several are equally maximum, which the fold reproduces: the
accumulator is replaced whenever the new element's score is `≥` the current
maximum's. -/
def Rendezvous.pick_top {N K : Type} (r : Rendezvous N K) (key : K) : Option N :=
  r.nodes.foldl
    (fun acc n =>
      match acc with
      | none => some n
      | some m => if hrw_score key m r.build ≤ hrw_score key n r.build then some n else some m)
    none

/-- Stable insertion of a scored pair into a list sorted by descending score:
the new pair goes before the first existing pair whose score is `≤` its own. -/
def insertScoredDesc {N : Type} (p : Nat × N) : List (Nat × N) → List (Nat × N)
  | [] => [p]
  | q :: qs => if q.1 ≤ p.1 then p :: q :: qs else q :: insertScoredDesc p qs

/-- Model of the scored-pair pipeline
`select_nth_unstable_by(nth, desc)` followed by `sort_unstable_by(desc)` on the
`[..k]` slice.  Both routines live in the Rust standard library (not in this
repository) and compare pairs only by score, descending; their contract pins the
result up to the relative order of equal-score pairs (the spec explicitly allows
the selection step to reorder equal-score elements arbitrarily).  The composite
is modelled as a stable insertion sort by descending score — one realization of
that contract, and the unique one whenever all scores are distinct; it also
matches the standard library's stable insertion-sort behavior on short slices. -/
def sortScoredDesc {N : Type} : List (Nat × N) → List (Nat × N)
  | [] => []
  | p :: ps => insertScoredDesc p (sortScoredDesc ps)

/-- `fn pick_top_k<K: Hash>(&self, key: &K, k: usize) -> Vec<&N>`: empty result
for an empty node set or `k == 0`; otherwise clamp `k`, score every node, select
the top-`k` scored pairs, sort that prefix by descending score, and drop the
scores. -/
def Rendezvous.pick_top_k {N K : Type} (r : Rendezvous N K) (key : K) (k : Nat) : List N :=
  if r.nodes.isEmpty || k == 0 then
    []
  else
    let k1 := min k r.nodes.length
    let scored := r.nodes.map (fun n => (hrw_score key n r.build, n))
    let k2 := min k1 scored.length
    ((sortScoredDesc scored).take k2).map (fun p => p.2)

/-- `fn len(&self) -> usize`. -/
def Rendezvous.len {N K : Type} (r : Rendezvous N K) : Nat :=
  r.nodes.length

/-- `fn is_empty(&self) -> bool`. -/
def Rendezvous.is_empty {N K : Type} (r : Rendezvous N K) : Bool :=
  r.nodes.isEmpty

/-- The selector states reachable through the public constructors
(`new`, `from_nodes`, `from_nodes_and_hasher`) and the mutators
(`add_node`, `remove_node`), exactly as the crate exposes them. -/
inductive Reachable {N K : Type} [DecidableEq N] : Rendezvous N K → Prop
  | new (b : BuildHasher K N) : Reachable (Rendezvous.new b)
  | from_nodes (l : List N) (b : BuildHasher K N) : Reachable (Rendezvous.from_nodes l b)
  | from_nodes_and_hasher (l : List N) (b : BuildHasher K N) :
      Reachable (Rendezvous.from_nodes_and_hasher l b)
  | add (r : Rendezvous N K) (n : N) : Reachable r → Reachable (r.add_node n).1
  | remove (r : Rendezvous N K) (n : N) : Reachable r → Reachable (r.remove_node n).1

/-- Reachability restricted to duplicate-free initial collections: the same
constructors and mutators, but `from_nodes` and `from_nodes_and_hasher` may only
be seeded with a list of pairwise-distinct nodes. -/
inductive ReachableDistinct {N K : Type} [DecidableEq N] : Rendezvous N K → Prop
  | new (b : BuildHasher K N) : ReachableDistinct (Rendezvous.new b)
  | from_nodes (l : List N) (b : BuildHasher K N) (h : l.Nodup) :
      ReachableDistinct (Rendezvous.from_nodes l b)
  | from_nodes_and_hasher (l : List N) (b : BuildHasher K N) (h : l.Nodup) :
      ReachableDistinct (Rendezvous.from_nodes_and_hasher l b)
  | add (r : Rendezvous N K) (n : N) : ReachableDistinct r → ReachableDistinct (r.add_node n).1
  | remove (r : Rendezvous N K) (n : N) :
      ReachableDistinct r → ReachableDistinct (r.remove_node n).1

/-- A concrete builder whose score is constant `0`: every node ties. -/
def constBuild : BuildHasher Nat Nat :=
  { build_hasher := 0, hashKey := fun h _ => h, hashNode := fun h _ => h, finish := fun h => h }

/-- A concrete builder whose score of node `n` is `n` itself (for small `n`):
all-distinct scores. -/
def idBuild : BuildHasher Nat Nat :=
  { build_hasher := 0, hashKey := fun h _ => h, hashNode := fun _ n => n, finish := fun h => h }

example : hrw_score 0 5 idBuild = 5 := by decide
example : hrw_score 0 5 constBuild = 0 := by decide
example : (Rendezvous.from_nodes [0, 1] constBuild).pick_top 0 = some 1 := by decide
example : (Rendezvous.from_nodes [1, 0] constBuild).pick_top 0 = some 0 := by decide
example : (Rendezvous.from_nodes [0, 1] constBuild).pick_top_k 0 1 = [0] := by decide
example : (Rendezvous.from_nodes [0, 1, 2] idBuild).pick_top_k 0 2 = [2, 1] := by decide
example : ((Rendezvous.from_nodes [0, 1] idBuild).remove_node 0).1.nodes = [1] := by decide
example : ((Rendezvous.from_nodes [0, 1, 2] idBuild).remove_node 0).1.nodes = [2, 1] := by decide
example : ((Rendezvous.from_nodes [0, 1, 2] idBuild).add_node 1).2 = false := by decide
example : ((Rendezvous.from_nodes [0, 1, 2] idBuild).add_node 3).1.nodes = [0, 1, 2, 3] := by
  decide

/-- The `max_by_key` fold used by `pick_top`, abstracted over the scoring
function and the accumulator. -/
def pickTopAux {N : Type} (f : N → Nat) (acc : Option N) (l : List N) : Option N :=
  l.foldl
    (fun acc n =>
      match acc with
      | none => some n
      | some m => if f m ≤ f n then some n else some m)
    acc

theorem pick_top_eq_pickTopAux {N K : Type} (r : Rendezvous N K) (key : K) :
    r.pick_top key = pickTopAux (fun n => hrw_score key n r.build) none r.nodes := rfl

theorem pickTopAux_cons {N : Type} (f : N → Nat) (m n : N) (t : List N) :
    pickTopAux f (some m) (n :: t) =
      pickTopAux f (if f m ≤ f n then some n else some m) t := rfl

/-- Result of the fold started at `some m`: either `m` wins outright and every
scanned element scores strictly below it, or the winner occurs in the list,
scores at least `m` and at least every element, and strictly above everything
scanned after its (winning) occurrence. -/
theorem pickTopAux_spec {N : Type} (f : N → Nat) :
    ∀ (l : List N) (m : N),
      (pickTopAux f (some m) l = some m ∧ ∀ y ∈ l, f y < f m) ∨
      (∃ m' l₁ l₂, pickTopAux f (some m) l = some m' ∧ l = l₁ ++ m' :: l₂ ∧
        f m ≤ f m' ∧ (∀ y ∈ l, f y ≤ f m') ∧ (∀ y ∈ l₂, f y < f m'))
  | [], m => Or.inl ⟨rfl, by simp⟩
  | n :: t, m => by
    rw [pickTopAux_cons]
    by_cases hmn : f m ≤ f n
    · rw [if_pos hmn]
      rcases pickTopAux_spec f t n with ⟨h1, h2⟩ | ⟨m', l₁, l₂, h1, h2, h3, h4, h5⟩
      · refine Or.inr ⟨n, [], t, h1, rfl, hmn, ?_, h2⟩
        intro y hy
        rcases List.mem_cons.mp hy with rfl | hy
        · exact le_refl _
        · exact le_of_lt (h2 y hy)
      · refine Or.inr ⟨m', n :: l₁, l₂, h1, by rw [h2]; rfl, le_trans hmn h3, ?_, h5⟩
        intro y hy
        rcases List.mem_cons.mp hy with rfl | hy
        · exact h3
        · exact h4 y hy
    · rw [if_neg hmn]
      push_neg at hmn
      rcases pickTopAux_spec f t m with ⟨h1, h2⟩ | ⟨m', l₁, l₂, h1, h2, h3, h4, h5⟩
      · refine Or.inl ⟨h1, ?_⟩
        intro y hy
        rcases List.mem_cons.mp hy with rfl | hy
        · exact hmn
        · exact h2 y hy
      · refine Or.inr ⟨m', n :: l₁, l₂, h1, by rw [h2]; rfl, h3, ?_, h5⟩
        intro y hy
        rcases List.mem_cons.mp hy with rfl | hy
        · exact le_of_lt (lt_of_lt_of_le hmn h3)
        · exact h4 y hy

/-- On a non-empty node set, `pick_top` returns a maximal-score node and the
occurrence it returns is the last maximal one in scan order: everything after it
scores strictly lower. -/
theorem pick_top_spec {N K : Type} (r : Rendezvous N K) (key : K) (h : r.nodes ≠ []) :
    ∃ m l₁ l₂, r.pick_top key = some m ∧ r.nodes = l₁ ++ m :: l₂ ∧
      (∀ y ∈ r.nodes, hrw_score key y r.build ≤ hrw_score key m r.build) ∧
      (∀ y ∈ l₂, hrw_score key y r.build < hrw_score key m r.build) := by
  obtain ⟨x, t, hxt⟩ := List.exists_cons_of_ne_nil h
  have hpt : r.pick_top key =
      pickTopAux (fun n => hrw_score key n r.build) (some x) t := by
    rw [pick_top_eq_pickTopAux, hxt]; rfl
  rcases pickTopAux_spec (fun n => hrw_score key n r.build) t x with
    ⟨h1, h2⟩ | ⟨m', l₁, l₂, h1, h2, h3, h4, h5⟩
  · refine ⟨x, [], t, by rw [hpt, h1], by rw [hxt]; rfl, ?_, h2⟩
    intro y hy
    rw [hxt] at hy
    rcases List.mem_cons.mp hy with rfl | hy
    · exact le_refl _
    · exact le_of_lt (h2 y hy)
  · refine ⟨m', x :: l₁, l₂, by rw [hpt, h1], by rw [hxt, h2]; rfl, ?_, h5⟩
    intro y hy
    rw [hxt] at hy
    rcases List.mem_cons.mp hy with rfl | hy
    · exact h3
    · exact h4 y hy

theorem pick_top_eq_none_iff {N K : Type} (r : Rendezvous N K) (key : K) :
    r.pick_top key = none ↔ r.nodes = [] := by
  constructor
  · intro hn
    by_contra hne
    obtain ⟨m, _, _, h1, _⟩ := pick_top_spec r key hne
    rw [h1] at hn
    exact Option.noConfusion hn
  · intro he
    rw [pick_top_eq_pickTopAux, he]
    rfl

/-- If `m` strictly dominates every other node's score, `pick_top` returns `m`. -/
theorem pick_top_unique_max {N K : Type} (r : Rendezvous N K) (key : K) (m : N)
    (hm : m ∈ r.nodes)
    (hu : ∀ y ∈ r.nodes, y ≠ m → hrw_score key y r.build < hrw_score key m r.build) :
    r.pick_top key = some m := by
  have hne : r.nodes ≠ [] := List.ne_nil_of_mem hm
  obtain ⟨m', l₁, l₂, h1, h2, h3, _⟩ := pick_top_spec r key hne
  have hm' : m' ∈ r.nodes := by
    rw [h2]
    exact List.mem_append.mpr (Or.inr (List.mem_cons_self m' l₂))
  by_cases hmm : m' = m
  · rw [hmm] at h1
    exact h1
  · exact absurd (lt_of_le_of_lt (h3 m hm) (hu m' hm' hmm)) (lt_irrefl _)

theorem insertScoredDesc_perm {N : Type} (p : Nat × N) (l : List (Nat × N)) :
    (insertScoredDesc p l).Perm (p :: l) := by
  induction l with
  | nil => exact List.Perm.refl _
  | cons q qs ih =>
    simp only [insertScoredDesc]
    by_cases h : q.1 ≤ p.1
    · rw [if_pos h]
    · rw [if_neg h]
      exact (ih.cons q).trans (List.Perm.swap p q qs)

theorem mem_insertScoredDesc {N : Type} {x p : Nat × N} {l : List (Nat × N)} :
    x ∈ insertScoredDesc p l ↔ x = p ∨ x ∈ l := by
  rw [(insertScoredDesc_perm p l).mem_iff]
  exact List.mem_cons

theorem pairwise_insertScoredDesc {N : Type} {p : Nat × N} {l : List (Nat × N)}
    (h : l.Pairwise (fun a b => b.1 ≤ a.1)) :
    (insertScoredDesc p l).Pairwise (fun a b => b.1 ≤ a.1) := by
  induction l with
  | nil => simp [insertScoredDesc]
  | cons q qs ih =>
    rw [List.pairwise_cons] at h
    obtain ⟨hq, hqs⟩ := h
    simp only [insertScoredDesc]
    by_cases hqp : q.1 ≤ p.1
    · rw [if_pos hqp]
      refine List.Pairwise.cons ?_ (List.Pairwise.cons hq hqs)
      intro b hb
      rcases List.mem_cons.mp hb with rfl | hb
      · exact hqp
      · exact le_trans (hq b hb) hqp
    · rw [if_neg hqp]
      refine List.Pairwise.cons ?_ (ih hqs)
      intro b hb
      rcases mem_insertScoredDesc.mp hb with rfl | hb
      · exact le_of_not_le hqp
      · exact hq b hb

theorem sortScoredDesc_perm {N : Type} (l : List (Nat × N)) :
    (sortScoredDesc l).Perm l := by
  induction l with
  | nil => exact List.Perm.refl _
  | cons p ps ih =>
    simp only [sortScoredDesc]
    exact (insertScoredDesc_perm p (sortScoredDesc ps)).trans (ih.cons p)

theorem sortScoredDesc_pairwise {N : Type} (l : List (Nat × N)) :
    (sortScoredDesc l).Pairwise (fun a b => b.1 ≤ a.1) := by
  induction l with
  | nil => simp [sortScoredDesc]
  | cons p ps ih =>
    simp only [sortScoredDesc]
    exact pairwise_insertScoredDesc ih

/-- Two lists sorted strictly descending by score that are permutations of each
other are equal. -/
theorem sorted_strict_desc_perm_eq {N : Type} :
    ∀ {l₁ l₂ : List (Nat × N)}, l₁.Perm l₂ →
      l₁.Pairwise (fun a b => b.1 < a.1) → l₂.Pairwise (fun a b => b.1 < a.1) → l₁ = l₂ := by
  intro l₁
  induction l₁ with
  | nil =>
    intro l₂ hp _ _
    exact hp.symm.eq_nil.symm
  | cons a t₁ ih =>
    intro l₂ hp h1 h2
    cases l₂ with
    | nil => exact absurd hp.eq_nil (by simp)
    | cons b t₂ =>
      rw [List.pairwise_cons] at h1 h2
      have hab : a = b := by
        by_contra hne
        have ha2 : a ∈ b :: t₂ := hp.mem_iff.mp (List.mem_cons_self a t₁)
        have hb1 : b ∈ a :: t₁ := hp.mem_iff.mpr (List.mem_cons_self b t₂)
        have ha : a ∈ t₂ := by
          rcases List.mem_cons.mp ha2 with h | h
          · exact absurd h hne
          · exact h
        have hb : b ∈ t₁ := by
          rcases List.mem_cons.mp hb1 with h | h
          · exact absurd h.symm hne
          · exact h
        exact absurd (lt_trans (h1.1 b hb) (h2.1 a ha)) (lt_irrefl _)
      subst hab
      rw [ih hp.cons_inv h1.2 h2.2]

theorem scored_map_snd {N K : Type} (r : Rendezvous N K) (key : K) :
    (r.nodes.map (fun n => (hrw_score key n r.build, n))).map (fun p => p.2) = r.nodes := by
  simp [List.map_map, Function.comp_def]

theorem mem_scored {N K : Type} {r : Rendezvous N K} {key : K} {p : Nat × N}
    (hp : p ∈ r.nodes.map (fun n => (hrw_score key n r.build, n))) :
    p.1 = hrw_score key p.2 r.build ∧ p.2 ∈ r.nodes := by
  rcases List.mem_map.mp hp with ⟨n, hn, rfl⟩
  exact ⟨rfl, hn⟩

theorem scored_mem {N K : Type} {r : Rendezvous N K} {key : K} {y : N} (hy : y ∈ r.nodes) :
    (hrw_score key y r.build, y) ∈ r.nodes.map (fun n => (hrw_score key n r.build, n)) :=
  List.mem_map.mpr ⟨y, hy, rfl⟩

/-- Unfolding of `pick_top_k` away from the degenerate guard. -/
theorem pick_top_k_eq {N K : Type} (r : Rendezvous N K) (key : K) (k : Nat)
    (hne : r.nodes ≠ []) (hk : k ≠ 0) :
    r.pick_top_k key k =
      ((sortScoredDesc (r.nodes.map (fun n => (hrw_score key n r.build, n)))).take
        (min k r.nodes.length)).map (fun p => p.2) := by
  simp only [Rendezvous.pick_top_k, List.isEmpty_eq_false.mpr hne, Bool.false_or,
    beq_eq_false_iff_ne.mpr hk, if_false, List.length_map]
  rw [Nat.min_eq_left (Nat.min_le_right k r.nodes.length)]
  simp

theorem pick_top_k_length {N K : Type} (r : Rendezvous N K) (key : K) (k : Nat)
    (hne : r.nodes ≠ []) (hk : k ≠ 0) :
    (r.pick_top_k key k).length = min k r.nodes.length := by
  rw [pick_top_k_eq r key k hne hk, List.length_map, List.length_take,
    (sortScoredDesc_perm _).length_eq, List.length_map]
  exact Nat.min_eq_left (Nat.min_le_right _ _)

theorem pick_top_k_subset {N K : Type} (r : Rendezvous N K) (key : K) (k : Nat) :
    ∀ n ∈ r.pick_top_k key k, n ∈ r.nodes := by
  intro n hn
  by_cases hne : r.nodes = []
  · simp [Rendezvous.pick_top_k, hne] at hn
  by_cases hk : k = 0
  · subst hk
    simp [Rendezvous.pick_top_k] at hn
  rw [pick_top_k_eq r key k hne hk] at hn
  rcases List.mem_map.mp hn with ⟨p, hp, rfl⟩
  exact (mem_scored ((sortScoredDesc_perm _).mem_iff.mp (List.mem_of_mem_take hp))).2

theorem pick_top_k_nodup {N K : Type} (r : Rendezvous N K) (key : K) (k : Nat)
    (hnd : r.nodes.Nodup) : (r.pick_top_k key k).Nodup := by
  by_cases hne : r.nodes = []
  · simp [Rendezvous.pick_top_k, hne]
  by_cases hk : k = 0
  · subst hk
    simp [Rendezvous.pick_top_k]
  rw [pick_top_k_eq r key k hne hk, List.map_take]
  have hperm :
      ((r.nodes.map (fun n => (hrw_score key n r.build, n))).map (fun p => p.2)).Perm
        ((sortScoredDesc (r.nodes.map (fun n => (hrw_score key n r.build, n)))).map
          (fun p => p.2)) :=
    List.Perm.map _ (sortScoredDesc_perm _).symm
  rw [scored_map_snd] at hperm
  exact List.Nodup.sublist (List.take_sublist _ _) (hperm.nodup hnd)

theorem pick_top_k_sorted {N K : Type} (r : Rendezvous N K) (key : K) (k : Nat) :
    (r.pick_top_k key k).Pairwise
      (fun a b => hrw_score key b r.build ≤ hrw_score key a r.build) := by
  by_cases hne : r.nodes = []
  · simp [Rendezvous.pick_top_k, hne]
  by_cases hk : k = 0
  · subst hk
    simp [Rendezvous.pick_top_k]
  rw [pick_top_k_eq r key k hne hk, List.pairwise_map]
  have hpw :
      (List.take (min k r.nodes.length)
          (sortScoredDesc (r.nodes.map (fun n => (hrw_score key n r.build, n))))).Pairwise
        (fun a b => b.1 ≤ a.1) :=
    List.Pairwise.sublist (List.take_sublist _ _) (sortScoredDesc_pairwise _)
  refine hpw.imp_of_mem ?_
  intro p q hp hq hle
  have hps := mem_scored ((sortScoredDesc_perm _).mem_iff.mp (List.mem_of_mem_take hp))
  have hqs := mem_scored ((sortScoredDesc_perm _).mem_iff.mp (List.mem_of_mem_take hq))
  rw [← hps.1, ← hqs.1]
  exact hle

/-- Every returned node scores at least as high as every node that was left
out: the result is a set of `k` highest-scoring nodes. -/
theorem pick_top_k_topk {N K : Type} (r : Rendezvous N K) (key : K) (k : Nat) :
    ∀ x ∈ r.pick_top_k key k, ∀ y ∈ r.nodes, y ∉ r.pick_top_k key k →
      hrw_score key y r.build ≤ hrw_score key x r.build := by
  intro x hx y hy hyn
  by_cases hne : r.nodes = []
  · simp [Rendezvous.pick_top_k, hne] at hx
  by_cases hk : k = 0
  · subst hk
    simp [Rendezvous.pick_top_k] at hx
  rw [pick_top_k_eq r key k hne hk] at hx hyn
  rcases List.mem_map.mp hx with ⟨px, hpx, rfl⟩
  have hpxs := mem_scored ((sortScoredDesc_perm _).mem_iff.mp (List.mem_of_mem_take hpx))
  have hpy : (hrw_score key y r.build, y) ∈
      sortScoredDesc (r.nodes.map (fun n => (hrw_score key n r.build, n))) :=
    (sortScoredDesc_perm _).mem_iff.mpr (scored_mem hy)
  rw [← List.take_append_drop (min k r.nodes.length)
    (sortScoredDesc (r.nodes.map (fun n => (hrw_score key n r.build, n))))] at hpy
  rcases List.mem_append.mp hpy with hpyT | hpyD
  · exact absurd (List.mem_map.mpr ⟨_, hpyT, rfl⟩) hyn
  · have hpw := sortScoredDesc_pairwise (r.nodes.map (fun n => (hrw_score key n r.build, n)))
    rw [← List.take_append_drop (min k r.nodes.length)
      (sortScoredDesc (r.nodes.map (fun n => (hrw_score key n r.build, n)))),
      List.pairwise_append] at hpw
    have := hpw.2.2 px hpx _ hpyD
    rw [← hpxs.1]
    exact this

theorem pick_top_k_sorted_strict {N K : Type} (r : Rendezvous N K) (key : K) (k : Nat)
    (hnd : r.nodes.Nodup)
    (hinj : ∀ a ∈ r.nodes, ∀ b ∈ r.nodes,
      hrw_score key a r.build = hrw_score key b r.build → a = b) :
    (r.pick_top_k key k).Pairwise
      (fun a b => hrw_score key b r.build < hrw_score key a r.build) := by
  have hs := pick_top_k_sorted r key k
  have hd : (r.pick_top_k key k).Pairwise (fun a b => a ≠ b) := pick_top_k_nodup r key k hnd
  refine (hs.and hd).imp_of_mem ?_
  intro a b ha hb hab
  have haN := pick_top_k_subset r key k a ha
  have hbN := pick_top_k_subset r key k b hb
  refine lt_of_le_of_ne hab.1 ?_
  intro heq
  exact hab.2 (hinj a haN b hbN heq.symm)

theorem pick_top_k_all {N K : Type} (r : Rendezvous N K) (key : K) (k : Nat)
    (hne : r.nodes ≠ []) (hk : k ≠ 0) (hkl : r.nodes.length ≤ k) :
    (r.pick_top_k key k).Perm r.nodes := by
  rw [pick_top_k_eq r key k hne hk, Nat.min_eq_right hkl]
  have hlen : (sortScoredDesc (r.nodes.map (fun n => (hrw_score key n r.build, n)))).length =
      r.nodes.length := by
    rw [(sortScoredDesc_perm _).length_eq, List.length_map]
  rw [← hlen, List.take_length]
  have hperm := List.Perm.map (fun p : Nat × N => p.2) (sortScoredDesc_perm
    (r.nodes.map (fun n => (hrw_score key n r.build, n))))
  rw [scored_map_snd] at hperm
  exact hperm

/-- If `m` strictly dominates every other node's score, `pick_top_k key 1`
returns exactly `[m]`. -/
theorem pick_top_k_one {N K : Type} (r : Rendezvous N K) (key : K) (m : N)
    (hm : m ∈ r.nodes)
    (hu : ∀ y ∈ r.nodes, y ≠ m → hrw_score key y r.build < hrw_score key m r.build) :
    r.pick_top_k key 1 = [m] := by
  have hne : r.nodes ≠ [] := List.ne_nil_of_mem hm
  rw [pick_top_k_eq r key 1 hne one_ne_zero]
  have hlpos : 1 ≤ r.nodes.length := List.length_pos.mpr hne
  rw [Nat.min_eq_left hlpos]
  have hlen : (sortScoredDesc (r.nodes.map (fun n => (hrw_score key n r.build, n)))).length =
      r.nodes.length := by
    rw [(sortScoredDesc_perm _).length_eq, List.length_map]
  obtain ⟨p, S₂, hS⟩ : ∃ p S₂,
      sortScoredDesc (r.nodes.map (fun n => (hrw_score key n r.build, n))) = p :: S₂ := by
    cases hS : sortScoredDesc (r.nodes.map (fun n => (hrw_score key n r.build, n))) with
    | nil =>
      rw [hS] at hlen
      simp only [List.length_nil] at hlen
      exact absurd hlen (List.length_pos.mpr hne).ne
    | cons p S₂ => exact ⟨p, S₂, rfl⟩
  rw [hS]
  have hpmem : p ∈ sortScoredDesc (r.nodes.map (fun n => (hrw_score key n r.build, n))) := by
    rw [hS]
    exact List.mem_cons_self _ _
  have hps := mem_scored ((sortScoredDesc_perm _).mem_iff.mp hpmem)
  have hpmax : ∀ y ∈ r.nodes, hrw_score key y r.build ≤ p.1 := by
    intro y hy
    have hyS : (hrw_score key y r.build, y) ∈ p :: S₂ := by
      rw [← hS]
      exact (sortScoredDesc_perm _).mem_iff.mpr (scored_mem hy)
    rcases List.mem_cons.mp hyS with heq | hyS₂
    · rw [← heq]
    · have hpw := sortScoredDesc_pairwise (r.nodes.map (fun n => (hrw_score key n r.build, n)))
      rw [hS, List.pairwise_cons] at hpw
      exact hpw.1 _ hyS₂
  have hp2 : p.2 = m := by
    by_contra hne2
    exact absurd (lt_of_le_of_lt (hpmax m hm) (by rw [hps.1]; exact hu p.2 hps.2 hne2))
      (lt_irrefl _)
  simp [hp2]

theorem mem_iff_any_eq {N : Type} [DecidableEq N] (l : List N) (node : N) :
    l.any (fun n => decide (n = node)) = true ↔ node ∈ l := by
  simp [List.any_eq_true]

/-- `add_node` as a membership test. -/
theorem add_node_eq {N K : Type} [DecidableEq N] (r : Rendezvous N K) (node : N) :
    r.add_node node =
      if node ∈ r.nodes then (r, false)
      else ({ r with nodes := r.nodes ++ [node] }, true) := by
  unfold Rendezvous.add_node
  by_cases h : node ∈ r.nodes
  · rw [if_pos ((mem_iff_any_eq r.nodes node).mpr h), if_pos h]
  · rw [if_neg, if_neg h]
    rw [mem_iff_any_eq]
    exact h

theorem listPosition_eq_none_iff {N : Type} (p : N → Bool) (l : List N) :
    listPosition p l = none ↔ ∀ x ∈ l, ¬p x = true := by
  induction l with
  | nil => simp [listPosition]
  | cons x t ih =>
    simp only [listPosition]
    by_cases hx : p x
    · rw [if_pos hx]
      simp [hx]
    · rw [if_neg hx, Option.map_eq_none', ih]
      constructor
      · intro h y hy
        rcases List.mem_cons.mp hy with rfl | hy2
        · exact hx
        · exact h y hy2
      · intro h y hy
        exact h y (List.mem_cons_of_mem x hy)

theorem listPosition_isSome_mem {N : Type} (p : N → Bool) :
    ∀ (l : List N) (i : Nat), listPosition p l = some i → ∃ x ∈ l, p x = true
  | [], i, h => by simp [listPosition] at h
  | x :: t, i, h => by
    simp only [listPosition] at h
    by_cases hx : p x
    · exact ⟨x, List.mem_cons_self x t, hx⟩
    · rw [if_neg hx, Option.map_eq_some'] at h
      rcases h with ⟨j, hj, -⟩
      obtain ⟨y, hy, hpy⟩ := listPosition_isSome_mem p t j hj
      exact ⟨y, List.mem_cons_of_mem x hy, hpy⟩

/-- The index found by `position` is in bounds, and erasing at it erases the
first occurrence by value. -/
theorem listPosition_eraseIdx {N : Type} [DecidableEq N] (node : N) :
    ∀ (l : List N) (i : Nat), listPosition (fun n => decide (n = node)) l = some i →
      i < l.length ∧ l.eraseIdx i = l.erase node
  | [], i, h => by simp [listPosition] at h
  | x :: t, i, h => by
    simp only [listPosition] at h
    by_cases hx : x = node
    · rw [if_pos (by simp [hx])] at h
      cases h
      subst hx
      refine ⟨by simp, ?_⟩
      rw [List.eraseIdx_cons_zero, List.erase_cons_head]
    · rw [if_neg (by simp [hx]), Option.map_eq_some'] at h
      rcases h with ⟨j, hj, rfl⟩
      obtain ⟨hjl, hje⟩ := listPosition_eraseIdx node t j hj
      refine ⟨by simpa using Nat.succ_lt_succ hjl, ?_⟩
      rw [List.eraseIdx_cons_succ, hje, List.erase_cons_tail (by simp [hx])]

theorem set_perm_eraseIdx_append {N : Type} :
    ∀ (l : List N) (i : Nat) (z : N), i < l.length →
      (l.set i z).Perm (l.eraseIdx i ++ [z])
  | [], i, z, h => by simp at h
  | x :: t, 0, z, h => by
    rw [List.set_cons_zero, List.eraseIdx_cons_zero]
    exact (List.perm_append_singleton z t).symm
  | x :: t, i + 1, z, h => by
    rw [List.set_cons_succ, List.eraseIdx_cons_succ, List.cons_append]
    exact (set_perm_eraseIdx_append t i z (by simpa using h)).cons x

theorem eraseIdx_concat_of_lt {N : Type} :
    ∀ (l : List N) (z : N) (i : Nat), i < l.length →
      (l ++ [z]).eraseIdx i = l.eraseIdx i ++ [z]
  | [], z, i, h => by simp at h
  | x :: t, z, 0, h => by
    rw [List.cons_append, List.eraseIdx_cons_zero, List.eraseIdx_cons_zero]
  | x :: t, z, i + 1, h => by
    rw [List.cons_append, List.eraseIdx_cons_succ, List.eraseIdx_cons_succ,
      eraseIdx_concat_of_lt t z i (by simpa using h), List.cons_append]

theorem eraseIdx_concat_length {N : Type} :
    ∀ (l : List N) (z : N), (l ++ [z]).eraseIdx l.length = l
  | [], z => by
    rw [List.nil_append, List.length_nil, List.eraseIdx_cons_zero]
  | x :: t, z => by
    rw [List.cons_append, List.length_cons, List.eraseIdx_cons_succ,
      eraseIdx_concat_length t z]

theorem swapRemove_concat {N : Type} (l₀ : List N) (z : N) (i : Nat) :
    swapRemove (l₀ ++ [z]) i = ((l₀ ++ [z]).set i z).dropLast := by
  unfold swapRemove
  rw [List.getLast?_concat]

/-- `Vec::swap_remove` returns (a permutation of) the list with the element at
index `i` removed. -/
theorem swapRemove_perm {N : Type} (l : List N) (i : Nat) (h : i < l.length) :
    (swapRemove l i).Perm (l.eraseIdx i) := by
  have hne : l ≠ [] := by
    intro he
    rw [he] at h
    simp at h
  obtain ⟨l₀, z, hz⟩ : ∃ l₀ z, l = l₀ ++ [z] := by
    rcases List.eq_nil_or_concat l with he | ⟨l₀, z, hz⟩
    · exact absurd he hne
    · exact ⟨l₀, z, by simpa [List.concat_eq_append] using hz⟩
  subst hz
  rw [swapRemove_concat]
  rw [List.length_append, List.length_singleton] at h
  by_cases hi : i < l₀.length
  · rw [List.set_append, if_pos hi, List.dropLast_concat, eraseIdx_concat_of_lt l₀ z i hi]
    exact set_perm_eraseIdx_append l₀ i z hi
  · have hieq : i = l₀.length := le_antisymm (Nat.lt_succ_iff.mp h) (Nat.not_lt.mp hi)
    subst hieq
    rw [List.set_append, if_neg (lt_irrefl _), Nat.sub_self, List.set_cons_zero,
      List.dropLast_concat, eraseIdx_concat_length l₀ z]

theorem swapRemove_length {N : Type} (l : List N) (i : Nat) (h : i < l.length) :
    (swapRemove l i).length = l.length - 1 := by
  rw [(swapRemove_perm l i h).length_eq, List.length_eraseIdx, if_pos h]

/-- `remove_node` behavior, split by presence of the node. -/
theorem remove_node_spec {N K : Type} [DecidableEq N] (r : Rendezvous N K) (node : N) :
    (node ∈ r.nodes →
      (r.remove_node node).2 = true ∧
      ((r.remove_node node).1.nodes).Perm (r.nodes.erase node) ∧
      (r.remove_node node).1.build = r.build) ∧
    (node ∉ r.nodes → r.remove_node node = (r, false)) := by
  unfold Rendezvous.remove_node
  cases hpos : listPosition (fun n => decide (n = node)) r.nodes with
  | some i =>
    obtain ⟨hlt, herase⟩ := listPosition_eraseIdx node r.nodes i hpos
    refine ⟨fun _ => ⟨rfl, ?_, rfl⟩, fun hn => ?_⟩
    · rw [← herase]
      exact swapRemove_perm r.nodes i hlt
    · exfalso
      obtain ⟨x, hx, hpx⟩ := listPosition_isSome_mem _ r.nodes i hpos
      rw [decide_eq_true_eq] at hpx
      exact hn (hpx ▸ hx)
  | none =>
    refine ⟨fun hmem => ?_, fun _ => rfl⟩
    exact absurd (by simp : decide (node = node) = true)
      ((listPosition_eq_none_iff _ r.nodes).mp hpos node hmem)

theorem add_node_nodup {N K : Type} [DecidableEq N] (r : Rendezvous N K) (n : N)
    (h : r.nodes.Nodup) : ((r.add_node n).1).nodes.Nodup := by
  rw [add_node_eq]
  by_cases hm : n ∈ r.nodes
  · rw [if_pos hm]
    exact h
  · rw [if_neg hm]
    simp [List.nodup_append, h, hm]

theorem remove_node_nodup {N K : Type} [DecidableEq N] (r : Rendezvous N K) (n : N)
    (h : r.nodes.Nodup) : ((r.remove_node n).1).nodes.Nodup := by
  by_cases hm : n ∈ r.nodes
  · obtain ⟨-, hperm, -⟩ := (remove_node_spec r n).1 hm
    exact hperm.symm.nodup (h.erase n)
  · rw [(remove_node_spec r n).2 hm]
    exact h

/-- Every state reachable from duplicate-free initial collections has
pairwise-distinct nodes. -/
theorem reachableDistinct_nodup {N K : Type} [DecidableEq N] (r : Rendezvous N K)
    (h : ReachableDistinct r) : r.nodes.Nodup := by
  induction h with
  | new b => exact List.nodup_nil
  | from_nodes l b hl => exact hl
  | from_nodes_and_hasher l b hl => exact hl
  | add r n _ ih => exact add_node_nodup r n ih
  | remove r n _ ih => exact remove_node_nodup r n ih

theorem foldl_add_node_nodup {N K : Type} [DecidableEq N] :
    ∀ (xs : List N) (r : Rendezvous N K), r.nodes.Nodup →
      ((xs.foldl (fun r x => (r.add_node x).1) r).nodes).Nodup
  | [], _, h => h
  | x :: t, r, h => by
    rw [List.foldl_cons]
    exact foldl_add_node_nodup t _ (add_node_nodup r x h)

theorem foldl_add_node_mem {N K : Type} [DecidableEq N] :
    ∀ (xs : List N) (r : Rendezvous N K) (n : N),
      n ∈ (xs.foldl (fun r x => (r.add_node x).1) r).nodes → n ∈ r.nodes ∨ n ∈ xs
  | [], _, _, h => Or.inl h
  | x :: t, r, n, h => by
    rw [List.foldl_cons] at h
    rcases foldl_add_node_mem t _ n h with hr | ht
    · rw [add_node_eq] at hr
      by_cases hm : x ∈ r.nodes
      · rw [if_pos hm] at hr
        exact Or.inl hr
      · rw [if_neg hm] at hr
        rcases List.mem_append.mp hr with h1 | h2
        · exact Or.inl h1
        · simp only [List.mem_singleton] at h2
          subst h2
          exact Or.inr (List.mem_cons_self n t)
    · exact Or.inr (List.mem_cons_of_mem x ht)

/-- C1, counterexample: `from_nodes` collects its input verbatim, so seeding it
with `[0, 0]` yields a reachable state with two equal entries and a node count
(2) exceeding the number of distinct values supplied (1). -/
theorem no_duplicates_invariant_counterexample :
    Reachable (Rendezvous.from_nodes [0, 0] constBuild) ∧
    ¬(Rendezvous.from_nodes [0, 0] constBuild).nodes.Nodup ∧
    (Rendezvous.from_nodes [0, 0] constBuild).len = 2 ∧
    ([0, 0] : List Nat).dedup.length = 1 :=
  ⟨Reachable.from_nodes [0, 0] constBuild, by decide, rfl, by decide⟩

/-- C1 (amended: the initial collections handed to `from_nodes` /
`from_nodes_and_hasher` must themselves be duplicate-free — the constructors
perform no deduplication): every state reachable through the constructors and
`add_node`/`remove_node` then has pairwise-distinct nodes, and any sequence of
`add_node` calls starting from the empty selector produces a node count bounded
by the number of distinct values added. -/
theorem no_duplicates_invariant {N K : Type} [DecidableEq N] :
    (∀ r : Rendezvous N K, ReachableDistinct r → r.nodes.Nodup) ∧
    (∀ (bb : BuildHasher K N) (xs : List N),
      (xs.foldl (fun r x => (r.add_node x).1) (Rendezvous.new bb)).len ≤ xs.dedup.length) := by
  refine ⟨fun r h => reachableDistinct_nodup r h, fun bb xs => ?_⟩
  have hnd : ((xs.foldl (fun r x => (r.add_node x).1) (Rendezvous.new bb)).nodes).Nodup :=
    foldl_add_node_nodup xs (Rendezvous.new bb) List.nodup_nil
  have hmem : ∀ n ∈ (xs.foldl (fun r x => (r.add_node x).1) (Rendezvous.new bb)).nodes,
      n ∈ xs := by
    intro n hn
    rcases foldl_add_node_mem xs (Rendezvous.new bb) n hn with hr | hx
    · exact absurd hr (by simp [Rendezvous.new])
    · exact hx
  show (xs.foldl (fun r x => (r.add_node x).1) (Rendezvous.new bb)).nodes.length ≤
    xs.dedup.length
  calc (xs.foldl (fun r x => (r.add_node x).1) (Rendezvous.new bb)).nodes.length
      = (xs.foldl (fun r x => (r.add_node x).1) (Rendezvous.new bb)).nodes.toFinset.card :=
        (List.toFinset_card_of_nodup hnd).symm
    _ ≤ xs.toFinset.card := by
        refine Finset.card_le_card ?_
        intro a ha
        exact List.mem_toFinset.mpr (hmem a (List.mem_toFinset.mp ha))
    _ = xs.dedup.length := by
        rw [List.card_toFinset]

/-- C1, witness: a duplicate-free initial collection extended by `add_node`
stays duplicate-free, and three adds of two distinct values count at most 2. -/
theorem no_duplicates_invariant_witness :
    (Rendezvous.from_nodes [0, 1] constBuild).nodes.Nodup ∧
    (([5, 5, 7] : List Nat).foldl (fun r x => (r.add_node x).1)
      (Rendezvous.new constBuild)).len ≤ ([5, 5, 7] : List Nat).dedup.length :=
  ⟨(no_duplicates_invariant.1 (Rendezvous.from_nodes [0, 1] constBuild)
      (ReachableDistinct.from_nodes [0, 1] constBuild (by decide))),
    no_duplicates_invariant.2 constBuild [5, 5, 7]⟩

/-- C2, counterexample: with two nodes of equal score, `pick_top` (documented
last-wins `max_by_key`) returns node `1`, while the score-only selection
pipeline of `pick_top_k` cannot see scan positions and yields `[0]`:
`pick_top_k(key, 1)` is not `[pick_top(key)]` under a score tie. -/
theorem pick_top_k_one_agreement_counterexample :
    (Rendezvous.from_nodes [0, 1] constBuild).pick_top 0 = some 1 ∧
    (Rendezvous.from_nodes [0, 1] constBuild).pick_top_k 0 1 = [0] ∧
    ¬(Rendezvous.from_nodes [0, 1] constBuild).pick_top_k 0 1 = [1] :=
  ⟨by decide, by decide, by decide⟩

/-- C2 (amended: agreement is guaranteed when the top score is uniquely
attained — exact 64-bit score ties, which the spec calls astronomically
unlikely, are resolved by scan order in `pick_top` but arbitrarily by the
unstable selection in `pick_top_k`): on an empty node set both calls are
empty/absent, and whenever some node strictly dominates every other node's
score, `pick_top_k key 1` returns exactly that node, the one `pick_top`
returns. -/
theorem pick_top_k_one_agreement {N K : Type} (r : Rendezvous N K) (key : K) :
    (r.nodes = [] → r.pick_top key = none ∧ r.pick_top_k key 1 = []) ∧
    (∀ m ∈ r.nodes, (∀ y ∈ r.nodes, y ≠ m →
        hrw_score key y r.build < hrw_score key m r.build) →
      r.pick_top key = some m ∧ r.pick_top_k key 1 = [m]) := by
  constructor
  · intro he
    refine ⟨(pick_top_eq_none_iff r key).mpr he, ?_⟩
    simp [Rendezvous.pick_top_k, he]
  · intro m hm hu
    exact ⟨pick_top_unique_max r key m hm hu, pick_top_k_one r key m hm hu⟩

/-- C2, witness: with distinct scores (`idBuild` scores node `n` as `n`),
`pick_top` and `pick_top_k _ 1` agree on the dominating node `1`. -/
theorem pick_top_k_one_agreement_witness :
    (Rendezvous.from_nodes [0, 1] idBuild).pick_top 0 = some 1 ∧
    (Rendezvous.from_nodes [0, 1] idBuild).pick_top_k 0 1 = [1] :=
  (pick_top_k_one_agreement (Rendezvous.from_nodes [0, 1] idBuild) 0).2 1
    (by decide) (by decide)

/-- C3: on a non-empty node set `pick_top` returns the last maximal element of
the stable left-to-right scan — the returned node occurs in the collection,
every node scores at most it, and every node after that occurrence scores
strictly below it — and repeated calls on the same state and key return the
identical node (the model is a pure function). -/
theorem pick_top_last_maximal {N K : Type} (r : Rendezvous N K) (key : K)
    (h : r.nodes ≠ []) :
    (∃ m l₁ l₂, r.pick_top key = some m ∧ r.nodes = l₁ ++ m :: l₂ ∧
      (∀ y ∈ r.nodes, hrw_score key y r.build ≤ hrw_score key m r.build) ∧
      (∀ y ∈ l₂, hrw_score key y r.build < hrw_score key m r.build)) ∧
    r.pick_top key = r.pick_top key :=
  ⟨pick_top_spec r key h, rfl⟩

/-- C3, witness: on the all-ties state `[0, 1]` the last maximal element `1` is
returned. -/
theorem pick_top_last_maximal_witness :
    (∃ m l₁ l₂, (Rendezvous.from_nodes [0, 1] constBuild).pick_top 0 = some m ∧
      (Rendezvous.from_nodes [0, 1] constBuild).nodes = l₁ ++ m :: l₂ ∧
      (∀ y ∈ (Rendezvous.from_nodes [0, 1] constBuild).nodes,
        hrw_score 0 y constBuild ≤ hrw_score 0 m constBuild) ∧
      (∀ y ∈ l₂, hrw_score 0 y constBuild < hrw_score 0 m constBuild)) ∧
    (Rendezvous.from_nodes [0, 1] constBuild).pick_top 0 =
      (Rendezvous.from_nodes [0, 1] constBuild).pick_top 0 :=
  pick_top_last_maximal (Rendezvous.from_nodes [0, 1] constBuild) 0 (by decide)

/-- C9: `pick_top` returns `None` exactly on the empty node set, and on a
non-empty node set it always returns `Some` node (the operation is total: no
error or panic exists in the model). -/
theorem pick_top_none_iff_empty {N K : Type} (r : Rendezvous N K) (key : K) :
    (r.pick_top key = none ↔ r.nodes = []) ∧
    (r.nodes ≠ [] → ∃ n, r.pick_top key = some n) := by
  refine ⟨pick_top_eq_none_iff r key, fun hne => ?_⟩
  obtain ⟨m, _, _, h1, _⟩ := pick_top_spec r key hne
  exact ⟨m, h1⟩

/-- C9, witness: empty selector yields `none`; the two-node selector yields
some node. -/
theorem pick_top_none_iff_empty_witness :
    ((Rendezvous.new constBuild).pick_top 0 = none ↔
      (Rendezvous.new constBuild).nodes = []) ∧
    (∃ n, (Rendezvous.from_nodes [0, 1] constBuild).pick_top 0 = some n) :=
  ⟨(pick_top_none_iff_empty (Rendezvous.new constBuild) 0).1,
    (pick_top_none_iff_empty (Rendezvous.from_nodes [0, 1] constBuild) 0).2 (by decide)⟩

/-- C10: when the node collection is the singleton `[x]`, `pick_top` returns
`some x` for every key and every hash builder — the result does not depend on
the key or on any hash value. -/
theorem pick_top_singleton {N K : Type} (r : Rendezvous N K) (key : K) (x : N)
    (h : r.nodes = [x]) : r.pick_top key = some x := by
  rw [pick_top_eq_pickTopAux, h]
  rfl

/-- C10, witness: singleton `[7]` always wins, here under the constant-score
builder and key `3`. -/
theorem pick_top_singleton_witness :
    (Rendezvous.from_nodes [7] constBuild).pick_top 3 = some 7 :=
  pick_top_singleton (Rendezvous.from_nodes [7] constBuild) 3 7 rfl

theorem mem_map_pair {N : Type} {f : N → Nat} {l : List N} {p : Nat × N}
    (hp : p ∈ l.map (fun n => (f n, n))) : p.1 = f p.2 ∧ p.2 ∈ l := by
  rcases List.mem_map.mp hp with ⟨n, hn, rfl⟩
  exact ⟨rfl, hn⟩

theorem map_pair_snd {N : Type} (f : N → Nat) (l : List N) :
    (l.map (fun n => (f n, n))).map (fun p => p.2) = l := by
  simp [List.map_map, Function.comp_def]

/-- When the nodes are distinct and scores are collision-free on them, the
sorted scored list is strictly descending. -/
theorem sortScoredDesc_pairwise_strict {N : Type} (f : N → Nat) (l : List N)
    (hnd : l.Nodup) (hinj : ∀ a ∈ l, ∀ c ∈ l, f a = f c → a = c) :
    (sortScoredDesc (l.map (fun n => (f n, n)))).Pairwise (fun a b => b.1 < a.1) := by
  have hge := sortScoredDesc_pairwise (l.map (fun n => (f n, n)))
  have hsnd : ((sortScoredDesc (l.map (fun n => (f n, n)))).map (fun p => p.2)).Nodup := by
    have hperm := List.Perm.map (fun p : Nat × N => p.2)
      (sortScoredDesc_perm (l.map (fun n => (f n, n)))).symm
    rw [map_pair_snd] at hperm
    exact hperm.nodup hnd
  have hne : (sortScoredDesc (l.map (fun n => (f n, n)))).Pairwise
      (fun p q => p.2 ≠ q.2) := List.pairwise_map.mp hsnd
  refine (hge.and hne).imp_of_mem ?_
  intro p q hp hq hpq
  have hps := mem_map_pair ((sortScoredDesc_perm _).mem_iff.mp hp)
  have hqs := mem_map_pair ((sortScoredDesc_perm _).mem_iff.mp hq)
  refine lt_of_le_of_ne hpq.1 ?_
  intro heq
  exact hpq.2 (hinj p.2 hps.2 q.2 hqs.2 (by rw [← hps.1, ← hqs.1, heq]))

/-- C5, counterexample: two states holding the same nodes `{0, 1}` in different
storage orders, with the same builder, disagree on `pick_top` when the scores
tie (the last-wins scan tie-break is storage-order-dependent). -/
theorem selection_permutation_invariant_counterexample :
    (Rendezvous.from_nodes [0, 1] constBuild).nodes.Perm
      (Rendezvous.from_nodes [1, 0] constBuild).nodes ∧
    (Rendezvous.from_nodes [0, 1] constBuild).build =
      (Rendezvous.from_nodes [1, 0] constBuild).build ∧
    (Rendezvous.from_nodes [0, 1] constBuild).pick_top 0 = some 1 ∧
    (Rendezvous.from_nodes [1, 0] constBuild).pick_top 0 = some 0 ∧
    ¬(Rendezvous.from_nodes [0, 1] constBuild).pick_top 0 =
      (Rendezvous.from_nodes [1, 0] constBuild).pick_top 0 :=
  ⟨by decide, rfl, by decide, by decide, by decide⟩

/-- C5 (amended: order-independence holds whenever the key's scores are
collision-free on the node set — under an exact 64-bit score tie the scan-order
tie-break makes the outcome storage-order-dependent): for two selectors with
permuted node collections, the same builder, distinct nodes and no score ties,
`pick_top` returns the same node and `pick_top_k` the same sequence for every
`k`. -/
theorem selection_permutation_invariant {N K : Type} (l l' : List N)
    (bb : BuildHasher K N) (key : K) (hp : l'.Perm l) (hnd : l.Nodup)
    (hinj : ∀ a ∈ l, ∀ c ∈ l, hrw_score key a bb = hrw_score key c bb → a = c) :
    (Rendezvous.from_nodes l bb).pick_top key =
      (Rendezvous.from_nodes l' bb).pick_top key ∧
    ∀ k, (Rendezvous.from_nodes l bb).pick_top_k key k =
      (Rendezvous.from_nodes l' bb).pick_top_k key k := by
  constructor
  · by_cases he : l = []
    · have he' : l' = [] := by
        subst he
        exact hp.eq_nil
      rw [(pick_top_eq_none_iff (Rendezvous.from_nodes l bb) key).mpr he,
        (pick_top_eq_none_iff (Rendezvous.from_nodes l' bb) key).mpr he']
    · obtain ⟨m, l₁, l₂, h1, h2, h3, h4⟩ :=
        pick_top_spec (Rendezvous.from_nodes l bb) key he
      have hm : m ∈ l := by
        rw [show l = l₁ ++ m :: l₂ from h2]
        exact List.mem_append.mpr (Or.inr (List.mem_cons_self m l₂))
      have hum : ∀ y ∈ l, y ≠ m → hrw_score key y bb < hrw_score key m bb := by
        intro y hy hne
        refine lt_of_le_of_ne (h3 y hy) ?_
        intro heq
        exact hne (hinj y hy m hm heq)
      have h1' : (Rendezvous.from_nodes l' bb).pick_top key = some m := by
        refine pick_top_unique_max (Rendezvous.from_nodes l' bb) key m
          (hp.mem_iff.mpr hm) ?_
        intro y hy hne
        exact hum y (hp.mem_iff.mp hy) hne
      rw [h1, h1']
  · intro k
    by_cases he : l = []
    · have he' : l' = [] := by
        subst he
        exact hp.eq_nil
      subst he
      subst he'
      rfl
    by_cases hk : k = 0
    · subst hk
      simp [Rendezvous.pick_top_k]
    · have he' : l' ≠ [] := by
        intro hc
        subst hc
        exact he hp.symm.eq_nil
      rw [pick_top_k_eq (Rendezvous.from_nodes l bb) key k he hk,
        pick_top_k_eq (Rendezvous.from_nodes l' bb) key k he' hk]
      show (List.map (fun p => p.2) (List.take (min k l.length)
          (sortScoredDesc (l.map (fun n => (hrw_score key n bb, n)))))) =
        (List.map (fun p => p.2) (List.take (min k l'.length)
          (sortScoredDesc (l'.map (fun n => (hrw_score key n bb, n))))))
      have hS : sortScoredDesc (l'.map (fun n => (hrw_score key n bb, n))) =
          sortScoredDesc (l.map (fun n => (hrw_score key n bb, n))) := by
        apply sorted_strict_desc_perm_eq
        · exact (sortScoredDesc_perm _).trans
            ((List.Perm.map _ hp).trans (sortScoredDesc_perm _).symm)
        · refine sortScoredDesc_pairwise_strict _ _ (hp.symm.nodup hnd) ?_
          intro a ha c hc
          exact hinj a (hp.mem_iff.mp ha) c (hp.mem_iff.mp hc)
        · exact sortScoredDesc_pairwise_strict _ _ hnd hinj
      rw [hS, hp.length_eq]

/-- C5, witness: with collision-free scores the two storage orders of `{0, 1}`
agree on `pick_top` and on `pick_top_k _ 2`. -/
theorem selection_permutation_invariant_witness :
    (Rendezvous.from_nodes [0, 1] idBuild).pick_top 0 =
      (Rendezvous.from_nodes [1, 0] idBuild).pick_top 0 ∧
    (Rendezvous.from_nodes [0, 1] idBuild).pick_top_k 0 2 =
      (Rendezvous.from_nodes [1, 0] idBuild).pick_top_k 0 2 :=
  ⟨(selection_permutation_invariant [0, 1] [1, 0] idBuild 0 (by decide) (by decide)
      (by decide)).1,
    (selection_permutation_invariant [0, 1] [1, 0] idBuild 0 (by decide) (by decide)
      (by decide)).2 2⟩

/-- C4: for `1 ≤ k ≤ len` and a duplicate-free node set, `pick_top_k key k`
has length `min k len`, contains only members of the node set, has no
duplicates, consists of `k` highest-scoring nodes (every member scores at least
every non-member), is sorted descending by the internal score, and is sorted
strictly descending whenever the scores are collision-free on the node set
(ties fall back to the documented tie-break). -/
theorem pick_top_k_correct {N K : Type} (r : Rendezvous N K) (key : K) (k : Nat)
    (hnd : r.nodes.Nodup) (hk1 : 1 ≤ k) (hk2 : k ≤ r.nodes.length) :
    (r.pick_top_k key k).length = min k r.nodes.length ∧
    (∀ n ∈ r.pick_top_k key k, n ∈ r.nodes) ∧
    (r.pick_top_k key k).Nodup ∧
    (∀ x ∈ r.pick_top_k key k, ∀ y ∈ r.nodes, y ∉ r.pick_top_k key k →
      hrw_score key y r.build ≤ hrw_score key x r.build) ∧
    (r.pick_top_k key k).Pairwise
      (fun a b => hrw_score key b r.build ≤ hrw_score key a r.build) ∧
    ((∀ a ∈ r.nodes, ∀ c ∈ r.nodes,
        hrw_score key a r.build = hrw_score key c r.build → a = c) →
      (r.pick_top_k key k).Pairwise
        (fun a b => hrw_score key b r.build < hrw_score key a r.build)) := by
  have hne : r.nodes ≠ [] := by
    intro he
    rw [he] at hk2
    simp only [List.length_nil] at hk2
    omega
  exact ⟨pick_top_k_length r key k hne (by omega), pick_top_k_subset r key k,
    pick_top_k_nodup r key k hnd, pick_top_k_topk r key k, pick_top_k_sorted r key k,
    fun hinj => pick_top_k_sorted_strict r key k hnd hinj⟩

/-- C4, witness: the concrete two-of-three selection under collision-free
scores. -/
theorem pick_top_k_correct_witness :
    ((Rendezvous.from_nodes [0, 1, 2] idBuild).pick_top_k 0 2).length =
      min 2 (Rendezvous.from_nodes [0, 1, 2] idBuild).nodes.length ∧
    (∀ n ∈ (Rendezvous.from_nodes [0, 1, 2] idBuild).pick_top_k 0 2,
      n ∈ (Rendezvous.from_nodes [0, 1, 2] idBuild).nodes) ∧
    ((Rendezvous.from_nodes [0, 1, 2] idBuild).pick_top_k 0 2).Nodup ∧
    (∀ x ∈ (Rendezvous.from_nodes [0, 1, 2] idBuild).pick_top_k 0 2,
      ∀ y ∈ (Rendezvous.from_nodes [0, 1, 2] idBuild).nodes,
        y ∉ (Rendezvous.from_nodes [0, 1, 2] idBuild).pick_top_k 0 2 →
          hrw_score 0 y idBuild ≤ hrw_score 0 x idBuild) ∧
    ((Rendezvous.from_nodes [0, 1, 2] idBuild).pick_top_k 0 2).Pairwise
      (fun a b => hrw_score 0 b idBuild ≤ hrw_score 0 a idBuild) ∧
    ((∀ a ∈ (Rendezvous.from_nodes [0, 1, 2] idBuild).nodes,
        ∀ c ∈ (Rendezvous.from_nodes [0, 1, 2] idBuild).nodes,
          hrw_score 0 a idBuild = hrw_score 0 c idBuild → a = c) →
      ((Rendezvous.from_nodes [0, 1, 2] idBuild).pick_top_k 0 2).Pairwise
        (fun a b => hrw_score 0 b idBuild < hrw_score 0 a idBuild)) :=
  pick_top_k_correct (Rendezvous.from_nodes [0, 1, 2] idBuild) 0 2 (by decide)
    (by decide) (by decide)

/-- C6: `remove_node x` returns `true` iff `x` was present; a `true` removal
leaves `x` absent and shrinks the length by exactly 1; a `false` result leaves
the selector unchanged. -/
theorem remove_node_correct {N K : Type} [DecidableEq N] (r : Rendezvous N K) (x : N)
    (hnd : r.nodes.Nodup) :
    ((r.remove_node x).2 = true ↔ x ∈ r.nodes) ∧
    ((r.remove_node x).2 = true →
      x ∉ (r.remove_node x).1.nodes ∧ (r.remove_node x).1.len + 1 = r.len) ∧
    ((r.remove_node x).2 = false → (r.remove_node x).1 = r) := by
  obtain ⟨hin, hout⟩ := remove_node_spec r x
  by_cases hm : x ∈ r.nodes
  · obtain ⟨ht, hperm, -⟩ := hin hm
    refine ⟨⟨fun _ => hm, fun _ => ht⟩, fun _ => ⟨?_, ?_⟩, fun hf => ?_⟩
    · intro hc
      have hce : x ∈ r.nodes.erase x := hperm.mem_iff.mp hc
      rw [hnd.mem_erase_iff] at hce
      exact hce.1 rfl
    · show (r.remove_node x).1.nodes.length + 1 = r.nodes.length
      rw [hperm.length_eq, List.length_erase_of_mem hm]
      have hpos : 1 ≤ r.nodes.length := List.length_pos.mpr (List.ne_nil_of_mem hm)
      omega
    · rw [ht] at hf
      exact absurd hf (by simp)
  · have heq := hout hm
    refine ⟨⟨fun ht => ?_, fun hmem => absurd hmem hm⟩, fun ht => ?_, fun _ => ?_⟩
    · rw [heq] at ht
      exact absurd ht (by simp)
    · rw [heq] at ht
      exact absurd ht (by simp)
    · rw [heq]

/-- C6, witness: removing the present node `0` from `[0, 1]` succeeds, leaves
it absent and drops the length from 2 to 1. -/
theorem remove_node_correct_witness :
    (((Rendezvous.from_nodes [0, 1] idBuild).remove_node 0).2 = true ↔
      0 ∈ (Rendezvous.from_nodes [0, 1] idBuild).nodes) ∧
    (((Rendezvous.from_nodes [0, 1] idBuild).remove_node 0).2 = true →
      0 ∉ ((Rendezvous.from_nodes [0, 1] idBuild).remove_node 0).1.nodes ∧
      ((Rendezvous.from_nodes [0, 1] idBuild).remove_node 0).1.len + 1 =
        (Rendezvous.from_nodes [0, 1] idBuild).len) ∧
    (((Rendezvous.from_nodes [0, 1] idBuild).remove_node 0).2 = false →
      ((Rendezvous.from_nodes [0, 1] idBuild).remove_node 0).1 =
        Rendezvous.from_nodes [0, 1] idBuild) :=
  remove_node_correct (Rendezvous.from_nodes [0, 1] idBuild) 0 (by decide)

/-- C7: `add_node` returns `true` iff no equal element was present; a `true`
insertion appends the node at the end of the vector; adding a present node is a
no-op returning `false`. -/
theorem add_node_correct {N K : Type} [DecidableEq N] (r : Rendezvous N K) (node : N) :
    ((r.add_node node).2 = true ↔ node ∉ r.nodes) ∧
    ((r.add_node node).2 = true → (r.add_node node).1.nodes = r.nodes ++ [node]) ∧
    (node ∈ r.nodes → (r.add_node node).2 = false ∧ (r.add_node node).1 = r) := by
  rw [add_node_eq]
  by_cases hm : node ∈ r.nodes
  · rw [if_pos hm]
    exact ⟨⟨fun ht => absurd ht (by simp), fun hn => absurd hm hn⟩,
      fun ht => absurd ht (by simp), fun _ => ⟨rfl, rfl⟩⟩
  · rw [if_neg hm]
    exact ⟨⟨fun _ => hm, fun _ => rfl⟩, fun _ => rfl, fun hmem => absurd hmem hm⟩

/-- C7, witness: adding the fresh node `1` to `[0]` inserts it at the end and
reports `true`. -/
theorem add_node_correct_witness :
    (((Rendezvous.from_nodes [0] idBuild).add_node 1).2 = true ↔
      1 ∉ (Rendezvous.from_nodes [0] idBuild).nodes) ∧
    (((Rendezvous.from_nodes [0] idBuild).add_node 1).2 = true →
      ((Rendezvous.from_nodes [0] idBuild).add_node 1).1.nodes =
        (Rendezvous.from_nodes [0] idBuild).nodes ++ [1]) ∧
    (1 ∈ (Rendezvous.from_nodes [0] idBuild).nodes →
      ((Rendezvous.from_nodes [0] idBuild).add_node 1).2 = false ∧
      ((Rendezvous.from_nodes [0] idBuild).add_node 1).1 =
        Rendezvous.from_nodes [0] idBuild) :=
  add_node_correct (Rendezvous.from_nodes [0] idBuild) 1

/-- C8: `pick_top_k` is total: `k = 0` or an empty node set yields `[]`;
`k` at least the node count yields all nodes (a permutation of the collection);
every returned node belongs to the node set; and the result has no duplicates
when the node set has none. -/
theorem pick_top_k_total {N K : Type} (r : Rendezvous N K) (key : K) (k : Nat) :
    r.pick_top_k key 0 = [] ∧
    (r.nodes = [] → r.pick_top_k key k = []) ∧
    (r.nodes.length ≤ k → (r.pick_top_k key k).Perm r.nodes) ∧
    (∀ n ∈ r.pick_top_k key k, n ∈ r.nodes) ∧
    (r.nodes.Nodup → (r.pick_top_k key k).Nodup) := by
  refine ⟨by simp [Rendezvous.pick_top_k], fun he => by simp [Rendezvous.pick_top_k, he],
    fun hkl => ?_, pick_top_k_subset r key k, fun hnd => pick_top_k_nodup r key k hnd⟩
  by_cases he : r.nodes = []
  · have hres : r.pick_top_k key k = [] := by simp [Rendezvous.pick_top_k, he]
    rw [hres, he]
  · by_cases hk : k = 0
    · subst hk
      exact absurd (List.length_eq_zero.mp (Nat.le_zero.mp hkl)) he
    · exact pick_top_k_all r key k he hk hkl

/-- C8, witness: requesting 5 of 2 nodes returns all nodes with no duplicates
and no failure. -/
theorem pick_top_k_total_witness :
    (Rendezvous.from_nodes [0, 1] idBuild).pick_top_k 0 0 = [] ∧
    ((Rendezvous.from_nodes [0, 1] idBuild).nodes = [] →
      (Rendezvous.from_nodes [0, 1] idBuild).pick_top_k 0 5 = []) ∧
    ((Rendezvous.from_nodes [0, 1] idBuild).nodes.length ≤ 5 →
      ((Rendezvous.from_nodes [0, 1] idBuild).pick_top_k 0 5).Perm
        (Rendezvous.from_nodes [0, 1] idBuild).nodes) ∧
    (∀ n ∈ (Rendezvous.from_nodes [0, 1] idBuild).pick_top_k 0 5,
      n ∈ (Rendezvous.from_nodes [0, 1] idBuild).nodes) ∧
    ((Rendezvous.from_nodes [0, 1] idBuild).nodes.Nodup →
      ((Rendezvous.from_nodes [0, 1] idBuild).pick_top_k 0 5).Nodup) :=
  pick_top_k_total (Rendezvous.from_nodes [0, 1] idBuild) 0 5
